import Mathlib

/-!
Verification of the Version Resolution Engine of `gh-action-upgrader`
(src/src/index.ts). The engine is pure TypeScript over JavaScript numbers
and strings; we embed it shallowly:

* JavaScript numbers produced by `Number(...)` on dot-free tag segments are
  modelled by `JsNum`: `nan`, the two infinities, and exact rationals
  `val num den` (`den > 0` by construction, written as an unreduced pair so
  that all operations stay kernel-computable).  Tag segments never contain
  a `.` (they are produced by `split('.')`), so the fractional-point forms
  of the JS numeric grammar cannot occur; IEEE-754 rounding of components
  at or above 2^53 is not modelled (components are kept exact).
* `Array.prototype.sort` (ES2019+) is modelled by a stable insertion sort;
  per the `SortCompare` spec a `NaN` comparator result counts as `0`.
* `validate` from the `compare-versions` npm dependency (imported on line 6
  of src/src/index.ts) is modelled after that package's semver regexp
  `[v^~<>=]*?(\d+)(\.([x*]|\d+)(\.([x*]|\d+)(\.([x*]|\d+))?(-pre)?(+build)?)?)?`
  (case-insensitive, anchored), with `pre`/`build` being dot-separated
  nonempty runs of `[0-9a-zA-Z-]`.
-/

/-- A JavaScript number as produced by `Number(...)`: `NaN`, `±Infinity`,
or an exact rational `num / den` (`den > 0` by construction). -/
inductive JsNum where
  | nan : JsNum
  | inf : JsNum
  | ninf : JsNum
  | val (num : Int) (den : Nat) : JsNum
deriving DecidableEq, Repr

/-- JS `<` on numbers: `false` whenever `NaN` is involved. -/
def jsLt : JsNum → JsNum → Bool
  | .val a b, .val c d => decide (a * (d : Int) < c * (b : Int))
  | .val _ _, .inf => true
  | .ninf, .val _ _ => true
  | .ninf, .inf => true
  | _, _ => false

/-- JS `<=` on numbers: `false` whenever `NaN` is involved. -/
def jsLe : JsNum → JsNum → Bool
  | .nan, _ => false
  | _, .nan => false
  | .ninf, _ => true
  | .inf, .inf => true
  | .inf, _ => false
  | .val _ _, .inf => true
  | .val _ _, .ninf => false
  | .val a b, .val c d => decide (a * (d : Int) ≤ c * (b : Int))

/-- JS `>` on numbers. -/
def jsGt (a b : JsNum) : Bool := jsLt b a

/-- JS `===` on numbers: `NaN === x` is `false` for every `x`. -/
def jsStrictEq : JsNum → JsNum → Bool
  | .val a b, .val c d => decide (a * (d : Int) = c * (b : Int))
  | .inf, .inf => true
  | .ninf, .ninf => true
  | _, _ => false

/-- JS `!==` on numbers. -/
def jsStrictNe (a b : JsNum) : Bool := !(jsStrictEq a b)

/-- JS subtraction, used by the sort comparator (only its sign is consumed). -/
def jsSub : JsNum → JsNum → JsNum
  | .val a b, .val c d => .val (a * (d : Int) - c * (b : Int)) (b * d)
  | .nan, _ => .nan
  | _, .nan => .nan
  | .inf, .inf => .nan
  | .inf, _ => .inf
  | .ninf, .ninf => .nan
  | .ninf, _ => .ninf
  | .val _ _, .inf => .ninf
  | .val _ _, .ninf => .inf

/-- Whether a comparator result counts as "strictly less than zero"; per the
ES `SortCompare` specification a `NaN` result is treated as `0`. -/
def jsLtZero (a : JsNum) : Bool := jsLt a (.val 0 1)

/-- Characters trimmed by JS `ToNumber` before parsing (ASCII whitespace;
the exotic Unicode space characters never occur in git tags). -/
def jsWS (c : Char) : Bool := c.isWhitespace

/-- Decimal value of a run of digit characters. -/
def digitsToNat (l : List Char) : Nat :=
  l.foldl (fun n c => 10 * n + (c.toNat - '0'.toNat)) 0

def trimWS (l : List Char) : List Char :=
  ((l.dropWhile jsWS).reverse.dropWhile jsWS).reverse

def isHexDigitChar (c : Char) : Bool :=
  c.isDigit || ('a' ≤ c && c ≤ 'f') || ('A' ≤ c && c ≤ 'F')

def hexDigitVal (c : Char) : Nat :=
  if c.isDigit then c.toNat - '0'.toNat
  else if 'a' ≤ c && c ≤ 'f' then c.toNat - 'a'.toNat + 10
  else if 'A' ≤ c && c ≤ 'F' then c.toNat - 'A'.toNat + 10
  else 0

def isOctDigitChar (c : Char) : Bool := '0' ≤ c && c ≤ '7'

def isBinDigitChar (c : Char) : Bool := c = '0' || c = '1'

/-- Value of a `0x`/`0o`/`0b` literal body: `NaN` unless it is a nonempty
run of digits of the radix. -/
def radixVal (base : Nat) (valid : Char → Bool) (dval : Char → Nat)
    (ds : List Char) : JsNum :=
  if ds.isEmpty then .nan
  else if ds.all valid then .val (ds.foldl (fun n c => base * n + dval c) 0) 1
  else .nan

/-- The exponent part `e[+-]?digits` of a decimal literal, applied to the
digit run `ds` with sign `sg`. -/
def expVal (sg : Int) (ds : List Char) : List Char → JsNum
  | [] => .nan
  | er =>
    let (esign, eds) :=
      match er with
      | '+' :: k => (true, k)
      | '-' :: k => (false, k)
      | k => (true, k)
    if eds.isEmpty then .nan
    else if eds.all Char.isDigit then
      if esign then .val (sg * digitsToNat ds * (10 : Int) ^ digitsToNat eds) 1
      else .val (sg * digitsToNat ds) (10 ^ digitsToNat eds)
    else .nan

/-- A signed decimal literal body (no leading sign): digit run with optional
exponent part, or `Infinity`. -/
def decLit (sg : Int) (r : List Char) : JsNum :=
  if r = "Infinity".data then (if sg = 1 then .inf else .ninf)
  else
    let ds := r.takeWhile Char.isDigit
    let rest := r.dropWhile Char.isDigit
    if ds.isEmpty then .nan
    else
      match rest with
      | [] => .val (sg * digitsToNat ds) 1
      | 'e' :: er => expVal sg ds er
      | 'E' :: er => expVal sg ds er
      | _ => .nan

/-- The general (non-fast-path) part of `Number(...)` on a trimmed nonempty
segment: radix literals, then an optionally signed decimal literal. -/
def jsNumberGeneral : List Char → JsNum
  | '0' :: 'x' :: ds => radixVal 16 isHexDigitChar hexDigitVal ds
  | '0' :: 'X' :: ds => radixVal 16 isHexDigitChar hexDigitVal ds
  | '0' :: 'o' :: ds => radixVal 8 isOctDigitChar (fun c => c.toNat - '0'.toNat) ds
  | '0' :: 'O' :: ds => radixVal 8 isOctDigitChar (fun c => c.toNat - '0'.toNat) ds
  | '0' :: 'b' :: ds => radixVal 2 isBinDigitChar (fun c => c.toNat - '0'.toNat) ds
  | '0' :: 'B' :: ds => radixVal 2 isBinDigitChar (fun c => c.toNat - '0'.toNat) ds
  | '+' :: r => decLit 1 r
  | '-' :: r => decLit (-1) r
  | r => decLit 1 r

/-- JS `Number(...)` applied to one dot-free segment of a version string:
trim, empty string is `0`, a plain digit run is its decimal value, otherwise
the general numeric string grammar (yielding `NaN` for non-numeric input). -/
def jsNumberL (l : List Char) : JsNum :=
  if (trimWS l).isEmpty then .val 0 1
  else if (trimWS l).all Char.isDigit then .val (digitsToNat (trimWS l)) 1
  else jsNumberGeneral (trimWS l)

/-- `version.replace(/^v/, '')` — strip one leading lowercase `v`. -/
def stripV : List Char → List Char
  | 'v' :: rest => rest
  | l => l

/-- `String.prototype.split('.')`: `"".split('.')` is `[""]`, separators are
not kept, empty segments are kept. -/
def splitDots : List Char → List (List Char)
  | [] => [[]]
  | c :: cs =>
    if c = '.' then [] :: splitDots cs
    else
      match splitDots cs with
      | [] => [[c]]
      | h :: t => (c :: h) :: t

/-- `VersionInfo` of src/src/index.ts lines 16-21: optional fields are
`Option`, numbers are `JsNum`. -/
structure VersionInfo where
  major : JsNum
  minor : Option JsNum
  patch : Option JsNum
  raw : String
deriving DecidableEq, Repr

/-- `parseVersion` of src/src/index.ts lines 154-164: strip one leading `v`,
split on `.`, map each part through `Number`, keep parts 0/1/2 and the
cleaned string. -/
def parseVersion (version : String) : VersionInfo :=
  { major := ((splitDots (stripV version.data)).map jsNumberL).headD JsNum.nan
    minor := ((splitDots (stripV version.data)).map jsNumberL)[1]?
    patch := ((splitDots (stripV version.data)).map jsNumberL)[2]?
    raw := String.mk (stripV version.data) }

/-- A `Release` from the GitHub API (only its `tag_name` is consumed). -/
structure Release where
  tag_name : String
deriving DecidableEq, Repr

/- ### The `validate` check of the `compare-versions` dependency.
Implemented as a deterministic matcher for the package's anchored semver
regexp; determinism is justified because every alternation in the regexp is
guarded by disjoint character classes. -/

def vPrefixChar (c : Char) : Bool :=
  c == 'v' || c == 'V' || c == '^' || c == '~' || c == '<' || c == '>' || c == '='

def isXStar (c : Char) : Bool := c == 'x' || c == 'X' || c == '*'

/-- `[\da-z\-]` under the `i` flag: digit, ASCII letter, or hyphen. -/
def preChar (c : Char) : Bool := c.isDigit || c.isAlpha || c == '-'

mutual

/-- Inside the major digit run (at least one digit already read). -/
def vMajorD : List Char → Bool
  | [] => true
  | c :: r => if c = '.' then vB r else c.isDigit && vMajorD r

/-- Start of the minor component `([x*]|\d+)`. -/
def vB : List Char → Bool
  | [] => false
  | c :: r => if isXStar c then vAfterMinor r else c.isDigit && vMinorD r

/-- After a wildcard minor component. -/
def vAfterMinor : List Char → Bool
  | [] => true
  | c :: r => if c = '.' then vD r else false

/-- Inside the minor digit run. -/
def vMinorD : List Char → Bool
  | [] => true
  | c :: r => if c = '.' then vD r else c.isDigit && vMinorD r

/-- Start of the patch component `([x*]|\d+)`. -/
def vD : List Char → Bool
  | [] => false
  | c :: r => if isXStar c then vAfterPatch r else c.isDigit && vPatchD r

/-- After a wildcard patch component: optional fourth component,
pre-release, or build metadata. -/
def vAfterPatch : List Char → Bool
  | [] => true
  | c :: r =>
    if c = '.' then vF r
    else if c = '-' then segsTB r
    else if c = '+' then segsB r
    else false

/-- Inside the patch digit run. -/
def vPatchD : List Char → Bool
  | [] => true
  | c :: r =>
    if c = '.' then vF r
    else if c = '-' then segsTB r
    else if c = '+' then segsB r
    else c.isDigit && vPatchD r

/-- Start of the optional fourth component `([x*]|\d+)`. -/
def vF : List Char → Bool
  | [] => false
  | c :: r => if isXStar c then vAfterFourth r else c.isDigit && vFourthD r

/-- After a wildcard fourth component. -/
def vAfterFourth : List Char → Bool
  | [] => true
  | c :: r =>
    if c = '-' then segsTB r
    else if c = '+' then segsB r
    else false

/-- Inside the fourth digit run. -/
def vFourthD : List Char → Bool
  | [] => true
  | c :: r =>
    if c = '-' then segsTB r
    else if c = '+' then segsB r
    else c.isDigit && vFourthD r

/-- Pre-release segments, possibly handing over to build metadata at `+`. -/
def segsTB : List Char → Bool
  | [] => false
  | c :: r => preChar c && segsTBAfter r

def segsTBAfter : List Char → Bool
  | [] => true
  | c :: r =>
    if c = '.' then segsTB r
    else if c = '+' then segsB r
    else preChar c && segsTBAfter r

/-- Build-metadata segments. -/
def segsB : List Char → Bool
  | [] => false
  | c :: r => preChar c && segsBAfter r

def segsBAfter : List Char → Bool
  | [] => true
  | c :: r =>
    if c = '.' then segsB r
    else preChar c && segsBAfter r

end

/-- The whole core after the `[v^~<>=]*?` prefix: `\d+` then the rest. -/
def vMajor : List Char → Bool
  | [] => false
  | c :: r => c.isDigit && vMajorD r

/-- `validate` of the `compare-versions` package on a character list. -/
def validateL (l : List Char) : Bool := vMajor (l.dropWhile vPrefixChar)

/-- `validate` of the `compare-versions` package. -/
def validateB (s : String) : Bool := validateL s.data

/-- The candidate catalog of src/src/index.ts lines 182-184: parse every
release tag, keep those whose cleaned string passes `validate`. -/
def catalogOf (releases : List Release) : List VersionInfo :=
  (releases.map fun r => parseVersion r.tag_name).filter fun v => validateB v.raw

/-- The tie-break of the comparator of src/src/index.ts lines 196-199:
patch values are compared only when both are present, otherwise `0`. -/
def patchPart (a b : VersionInfo) : JsNum :=
  match a.patch, b.patch with
  | some ap, some bp => jsSub bp ap
  | _, _ => .val 0 1

/-- The sort comparator of src/src/index.ts lines 191-200: majors always
compared; minors compared only when both are present; then `patchPart`. -/
def jsCompareResult (a b : VersionInfo) : JsNum :=
  if jsStrictNe a.major b.major then jsSub b.major a.major
  else
    match a.minor, b.minor with
    | some am, some bm => if jsStrictNe am bm then jsSub bm am else patchPart a b
    | _, _ => patchPart a b

/-- Insert `x` after every element it does not compare strictly below —
the stable position for an element arriving later in the input. -/
def insertJs {α : Type} (c : α → α → JsNum) (x : α) : List α → List α
  | [] => [x]
  | y :: ys => if jsLtZero (c x y) then x :: y :: ys else y :: insertJs c x ys

/-- `Array.prototype.sort` with comparator `c`: stable (required since
ES2019), with a `NaN` comparator result treated as `0` per `SortCompare`.
Modelled as a stable insertion sort, which agrees with any stable sort
whenever the comparator is consistent on the input. -/
def sortJs {α : Type} (c : α → α → JsNum) (l : List α) : List α :=
  l.foldl (fun acc x => insertJs c x acc) []

/-- The `releases.find` callback of src/src/index.ts lines 216-221: a
major-only release of the new major line. -/
def majorOnlyPred (latest : VersionInfo) (r : Release) : Bool :=
  jsStrictEq (parseVersion r.tag_name).major latest.major
    && (parseVersion r.tag_name).minor.isNone
    && (parseVersion r.tag_name).patch.isNone

/-- The `releases.find` callback of src/src/index.ts lines 229-234 and
249-254: a major.minor release (minor set, patch unset) of the new major
line. -/
def majorMinorPred (latest : VersionInfo) (r : Release) : Bool :=
  jsStrictEq (parseVersion r.tag_name).major latest.major
    && (parseVersion r.tag_name).minor.isSome
    && (parseVersion r.tag_name).patch.isNone

/-- `getLatestVersion` of src/src/index.ts lines 166-275 with the I/O
stripped: the fetched release list is a parameter, `null` is `none`.
Parse the current version; build and sort the candidate catalog; apply the
major-increase gate; then select a target by the precision of the current
version, searching the raw release list. -/
def getLatestVersion (currentVersion : String) (releases : List Release) :
    Option String :=
  match sortJs jsCompareResult (catalogOf releases) with
  | [] => none
  | latestVersion :: _ =>
    if jsLe latestVersion.major (parseVersion currentVersion).major then none
    else if (parseVersion currentVersion).minor.isNone then
      match releases.find? (majorOnlyPred latestVersion) with
      | some r => some r.tag_name
      | none =>
        match releases.find? (majorMinorPred latestVersion) with
        | some r => some r.tag_name
        | none => some ("v" ++ latestVersion.raw)
    else if (parseVersion currentVersion).patch.isNone then
      match releases.find? (majorMinorPred latestVersion) with
      | some r => some r.tag_name
      | none => some ("v" ++ latestVersion.raw)
    else some ("v" ++ latestVersion.raw)

/-- `isNewerVersion` of src/src/index.ts lines 277-303. -/
def isNewerVersion (current latest : String) : Bool :=
  if jsGt (parseVersion latest).major (parseVersion current).major then true
  else if jsLt (parseVersion latest).major (parseVersion current).major then false
  else
    match (parseVersion current).minor, (parseVersion latest).minor with
    | some cm, some lm =>
      if jsGt lm cm then true
      else if jsLt lm cm then false
      else
        match (parseVersion current).patch, (parseVersion latest).patch with
        | some cp, some lp => jsGt lp cp
        | _, _ => false
    | _, _ => false

/-! ### The accepted grammar of the specification

`v?<int>(.<int>(.<int>)?)?` — an optional leading `v`, then one to three
dot-separated nonempty decimal-digit components. -/

/-- A nonempty run of decimal digits. -/
def digitsNE (l : List Char) : Bool := !l.isEmpty && l.all Char.isDigit

/-- The specification's accepted grammar on a character list. -/
def grammarOKL (s : List Char) : Bool :=
  match splitDots (stripV s) with
  | [a] => digitsNE a
  | [a, b] => digitsNE a && digitsNE b
  | [a, b, c] => digitsNE a && digitsNE b && digitsNE c
  | _ => false

/-- The specification's accepted grammar `v?<int>(.<int>(.<int>)?)?`. -/
def grammarOK (s : String) : Bool := grammarOKL s.data

/-- Numeric reading of a component that the grammar guarantees to be a
natural number (`0` on anything else). -/
def asNat (n : JsNum) : Nat :=
  match n with
  | .val a 1 => a.toNat
  | _ => 0

/-! ### Basic character and digit lemmas -/

lemma digit_ne {c : Char} (ch : Char) (h : c.isDigit = true)
    (h2 : ch.isDigit = false) : c ≠ ch := by
  intro e
  subst e
  rw [h] at h2
  exact Bool.noConfusion h2

lemma digit_not_ws {c : Char} (h : c.isDigit = true) : jsWS c = false := by
  unfold jsWS
  by_cases h1 : c = ' '
  · subst h1; exact absurd h (by decide)
  by_cases h2 : c = '\t'
  · subst h2; exact absurd h (by decide)
  by_cases h3 : c = '\r'
  · subst h3; exact absurd h (by decide)
  by_cases h4 : c = '\n'
  · subst h4; exact absurd h (by decide)
  simp [Char.isWhitespace, h1, h2, h3, h4]

lemma dropWhile_all_not {p : Char → Bool} {l : List Char}
    (h : ∀ c ∈ l, p c = false) : l.dropWhile p = l := by
  cases l with
  | nil => rfl
  | cons c cs => simp [List.dropWhile_cons, h c (by simp)]

lemma trimWS_digits {l : List Char} (h : l.all Char.isDigit = true) :
    trimWS l = l := by
  have hall : ∀ c ∈ l, jsWS c = false := fun c hc =>
    digit_not_ws (List.all_eq_true.mp h c hc)
  unfold trimWS
  rw [dropWhile_all_not hall,
    dropWhile_all_not (fun c hc => hall c (List.mem_reverse.mp hc)),
    List.reverse_reverse]

lemma jsNumber_digits {l : List Char} (hne : l.isEmpty = false)
    (h : l.all Char.isDigit = true) :
    jsNumberL l = .val (digitsToNat l) 1 := by
  unfold jsNumberL
  rw [trimWS_digits h, hne, h]
  simp

/-! ### `splitDots` reconstruction -/

lemma splitDots_ne_nil : ∀ l : List Char, splitDots l ≠ [] := by
  intro l
  induction l with
  | nil => simp [splitDots]
  | cons c cs ih =>
    simp only [splitDots]
    split
    · simp
    · cases h : splitDots cs with
      | nil => simp
      | cons a t => simp

/-- Inverse of `splitDots`: rejoin the segments with dots. -/
def joinDots : List (List Char) → List Char
  | [] => []
  | [a] => a
  | a :: rest => a ++ '.' :: joinDots rest

lemma splitDots_join : ∀ l : List Char, joinDots (splitDots l) = l := by
  intro l
  induction l with
  | nil => rfl
  | cons c cs ih =>
    simp only [splitDots]
    split
    · rename_i hc
      subst hc
      cases h : splitDots cs with
      | nil => exact absurd h (splitDots_ne_nil cs)
      | cons a t =>
        rw [h] at ih
        simp [joinDots, ih]
    · rename_i hc
      cases h : splitDots cs with
      | nil => exact absurd h (splitDots_ne_nil cs)
      | cons a t =>
        rw [h] at ih
        cases t with
        | nil => simpa [joinDots] using ih
        | cons b t2 => simpa [joinDots] using ih

/-! ### Comparisons on grammar-valued components -/

lemma jsLt_val (m n : Nat) :
    jsLt (.val (m : Int) 1) (.val (n : Int) 1) = decide (m < n) := by
  simp only [jsLt]
  rw [decide_eq_decide]
  push_cast
  omega

lemma jsLe_val (m n : Nat) :
    jsLe (.val (m : Int) 1) (.val (n : Int) 1) = decide (m ≤ n) := by
  simp only [jsLe]
  rw [decide_eq_decide]
  push_cast
  omega

lemma jsGt_val (m n : Nat) :
    jsGt (.val (m : Int) 1) (.val (n : Int) 1) = decide (n < m) := by
  simp only [jsGt, jsLt_val]

lemma jsStrictEq_val (m n : Nat) :
    jsStrictEq (.val (m : Int) 1) (.val (n : Int) 1) = decide (m = n) := by
  simp only [jsStrictEq]
  rw [decide_eq_decide]
  push_cast
  omega

lemma asNat_val (m : Nat) : asNat (.val (m : Int) 1) = m := by
  simp [asNat]

/-! ### The shape of parsed grammar-conforming versions -/

lemma grammar_cases {s : List Char} (h : grammarOKL s = true) :
    (∃ a, splitDots (stripV s) = [a] ∧ digitsNE a = true) ∨
    (∃ a b, splitDots (stripV s) = [a, b] ∧ digitsNE a = true ∧
      digitsNE b = true) ∨
    (∃ a b c, splitDots (stripV s) = [a, b, c] ∧ digitsNE a = true ∧
      digitsNE b = true ∧ digitsNE c = true) := by
  unfold grammarOKL at h
  rcases hs : splitDots (stripV s) with _ | ⟨a, _ | ⟨b, _ | ⟨c, _ | d⟩⟩⟩ <;>
    rw [hs] at h <;> simp_all <;> tauto

lemma digitsNE_parts {a : List Char} (h : digitsNE a = true) :
    a.isEmpty = false ∧ a.all Char.isDigit = true := by
  unfold digitsNE at h
  simp only [Bool.and_eq_true, Bool.not_eq_true'] at h
  exact h

lemma jsNumber_of_digitsNE {a : List Char} (h : digitsNE a = true) :
    jsNumberL a = .val (digitsToNat a) 1 := by
  obtain ⟨h1, h2⟩ := digitsNE_parts h
  exact jsNumber_digits h1 h2

/-- The `JsNum` of a natural-valued component. -/
def natVal (n : Nat) : JsNum := .val (n : Int) 1

lemma parse_fields {s : String} (h : grammarOK s = true) :
    ∃ (a : Nat) (mo po : Option Nat),
      (parseVersion s).major = .val (a : Int) 1 ∧
      (parseVersion s).minor = mo.map natVal ∧
      (parseVersion s).patch = po.map natVal ∧
      (po.isSome = true → mo.isSome = true) := by
  rcases grammar_cases h with ⟨a, hs, ha⟩ | ⟨a, b, hs, ha, hb⟩ |
    ⟨a, b, c, hs, ha, hb, hc⟩
  · exact ⟨digitsToNat a, none, none, by
      simp [parseVersion, hs, jsNumber_of_digitsNE ha], by
      simp [parseVersion, hs], by simp [parseVersion, hs], by simp⟩
  · exact ⟨digitsToNat a, some (digitsToNat b), none, by
      simp [parseVersion, hs, jsNumber_of_digitsNE ha], by
      simp [parseVersion, hs, jsNumber_of_digitsNE hb, natVal], by
      simp [parseVersion, hs], by simp⟩
  · exact ⟨digitsToNat a, some (digitsToNat b), some (digitsToNat c), by
      simp [parseVersion, hs, jsNumber_of_digitsNE ha], by
      simp [parseVersion, hs, jsNumber_of_digitsNE hb, natVal], by
      simp [parseVersion, hs, jsNumber_of_digitsNE hc, natVal], by simp⟩

/-! ### Membership and head of the modelled sort -/

lemma mem_insertJs {α : Type} (c : α → α → JsNum) (x : α) :
    ∀ (l : List α) (y : α), y ∈ insertJs c x l ↔ y = x ∨ y ∈ l := by
  intro l
  induction l with
  | nil => intro y; simp [insertJs]
  | cons z zs ih =>
    intro y
    simp only [insertJs]
    split
    · simp [or_comm, or_assoc, or_left_comm]
    · simp only [List.mem_cons, ih]
      tauto

lemma mem_foldl_insert {α : Type} (c : α → α → JsNum) :
    ∀ (l acc : List α) (y : α),
      y ∈ l.foldl (fun a x => insertJs c x a) acc ↔ y ∈ acc ∨ y ∈ l := by
  intro l
  induction l with
  | nil => intro acc y; simp
  | cons x xs ih =>
    intro acc y
    simp only [List.foldl_cons]
    rw [ih]
    simp only [mem_insertJs, List.mem_cons]
    tauto

lemma mem_sortJs {α : Type} (c : α → α → JsNum) (l : List α) (y : α) :
    y ∈ sortJs c l ↔ y ∈ l := by
  unfold sortJs
  rw [mem_foldl_insert]
  simp

/-- A version whose major is the grammar's natural-number value. -/
def NatMajor (v : VersionInfo) : Prop := ∃ n : Nat, v.major = .val (n : Int) 1

lemma ltZero_compare_major {x y : VersionInfo} {nx ny : Nat}
    (hnx : x.major = .val (nx : Int) 1) (hny : y.major = .val (ny : Int) 1)
    (h : jsLtZero (jsCompareResult x y) = true) : ny ≤ nx := by
  by_cases he : nx = ny
  · omega
  · unfold jsCompareResult at h
    rw [hnx, hny] at h
    have hne : jsStrictNe (.val (nx : Int) 1) (.val (ny : Int) 1) = true := by
      simp [jsStrictNe, jsStrictEq_val, he]
    rw [if_pos hne] at h
    simp only [jsSub, jsLtZero, jsLt] at h
    have := of_decide_eq_true h
    push_cast at this
    omega

lemma not_ltZero_compare_major {x y : VersionInfo} {nx ny : Nat}
    (hnx : x.major = .val (nx : Int) 1) (hny : y.major = .val (ny : Int) 1)
    (h : jsLtZero (jsCompareResult x y) = false) : nx ≤ ny := by
  by_cases he : nx = ny
  · omega
  · unfold jsCompareResult at h
    rw [hnx, hny] at h
    have hne : jsStrictNe (.val (nx : Int) 1) (.val (ny : Int) 1) = true := by
      simp [jsStrictNe, jsStrictEq_val, he]
    rw [if_pos hne] at h
    simp only [jsSub, jsLtZero, jsLt] at h
    have := of_decide_eq_false h
    push_cast at this
    omega

lemma insert_head_max (x : VersionInfo) (acc : List VersionInfo)
    (hx : NatMajor x) (hacc : ∀ v ∈ acc, NatMajor v)
    (hh : acc = [] ∨ ∃ h, acc.head? = some h ∧
      ∀ v ∈ acc, jsLe v.major h.major = true) :
    ∃ h, (insertJs jsCompareResult x acc).head? = some h ∧
      ∀ v, (v = x ∨ v ∈ acc) → jsLe v.major h.major = true := by
  obtain ⟨nx, hnx⟩ := hx
  cases acc with
  | nil =>
    refine ⟨x, rfl, ?_⟩
    rintro v (rfl | hv)
    · rw [hnx, jsLe_val]; simp
    · simp at hv
  | cons y ys =>
    have hmax : ∀ v ∈ y :: ys, jsLe v.major y.major = true := by
      obtain ⟨h0, hh0, hmax0⟩ := hh.resolve_left (by simp)
      have he : y = h0 := by simpa using hh0
      intro v hv
      rw [he]
      exact hmax0 v hv
    obtain ⟨ny, hny⟩ := hacc y (by simp)
    simp only [insertJs]
    by_cases hlt : jsLtZero (jsCompareResult x y) = true
    · rw [if_pos hlt]
      refine ⟨x, rfl, ?_⟩
      have hyx : ny ≤ nx := ltZero_compare_major hnx hny hlt
      rintro v (rfl | hv)
      · rw [hnx, jsLe_val]; simp
      · obtain ⟨nv, hnv⟩ := hacc v hv
        have := hmax v hv
        rw [hnv, hny, jsLe_val] at this
        rw [hnv, hnx, jsLe_val]
        have hvy := of_decide_eq_true this
        simp only [decide_eq_true_eq]
        omega
    · rw [if_neg hlt]
      refine ⟨y, rfl, ?_⟩
      have hxy : nx ≤ ny :=
        not_ltZero_compare_major hnx hny (by simpa using hlt)
      rintro v (rfl | hv)
      · rw [hnx, hny, jsLe_val]
        simp only [decide_eq_true_eq]
        omega
      · exact hmax v hv

lemma foldl_insert_head_max :
    ∀ (l acc : List VersionInfo),
      (∀ v ∈ l, NatMajor v) → (∀ v ∈ acc, NatMajor v) →
      (acc = [] ∨ ∃ h, acc.head? = some h ∧
        ∀ v ∈ acc, jsLe v.major h.major = true) →
      (l.foldl (fun a x => insertJs jsCompareResult x a) acc = [] ∨
        ∃ h, (l.foldl (fun a x => insertJs jsCompareResult x a) acc).head? =
            some h ∧
          ∀ v, (v ∈ acc ∨ v ∈ l) → jsLe v.major h.major = true) := by
  intro l
  induction l with
  | nil =>
    intro acc _ hacc hh
    rcases hh with rfl | ⟨h, hh, hmax⟩
    · left; rfl
    · right
      exact ⟨h, hh, fun v hv => hmax v (hv.resolve_right (by simp))⟩
  | cons x xs ih =>
    intro acc hl hacc hh
    have hx : NatMajor x := hl x (by simp)
    obtain ⟨h0, hh0, hmax0⟩ := insert_head_max x acc hx hacc hh
    have hacc2 : ∀ v ∈ insertJs jsCompareResult x acc, NatMajor v := by
      intro v hv
      rcases (mem_insertJs jsCompareResult x acc v).mp hv with rfl | hv
      · exact hx
      · exact hacc v hv
    have step := ih (insertJs jsCompareResult x acc)
      (fun v hv => hl v (by simp [hv]))
      hacc2
      (Or.inr ⟨h0, hh0, fun v hv =>
        hmax0 v ((mem_insertJs jsCompareResult x acc v).mp hv)⟩)
    simp only [List.foldl_cons]
    rcases step with hnil | ⟨h, hh2, hmax⟩
    · left; exact hnil
    · right
      refine ⟨h, hh2, ?_⟩
      intro v hv
      apply hmax
      rcases hv with hv | hv
      · exact Or.inl ((mem_insertJs jsCompareResult x acc v).mpr (Or.inr hv))
      · rcases List.mem_cons.mp hv with rfl | hv
        · exact Or.inl ((mem_insertJs jsCompareResult v acc v).mpr (Or.inl rfl))
        · exact Or.inr hv

lemma sortJs_head_max (l : List VersionInfo)
    (hl : ∀ v ∈ l, NatMajor v) (hne : l ≠ []) :
    ∃ h, (sortJs jsCompareResult l).head? = some h ∧ h ∈ l ∧
      ∀ v ∈ l, jsLe v.major h.major = true := by
  rcases foldl_insert_head_max l [] hl (by simp) (Or.inl rfl) with hnil |
    ⟨h, hh, hmax⟩
  · obtain ⟨x, hx⟩ := List.exists_mem_of_ne_nil l hne
    have hmem : x ∈ sortJs jsCompareResult l := (mem_sortJs _ _ _).mpr hx
    unfold sortJs at hmem
    rw [hnil] at hmem
    simp at hmem
  · refine ⟨h, hh, ?_, fun v hv => hmax v (Or.inr hv)⟩
    have hmem : h ∈ sortJs jsCompareResult l := by
      cases hsort : sortJs jsCompareResult l with
      | nil =>
        unfold sortJs at hsort
        rw [hsort] at hh
        exact absurd hh (by simp)
      | cons a t =>
        have : a = h := by
          unfold sortJs at hsort
          rw [hsort] at hh
          simpa using hh
        simp [hsort, this]
    exact (mem_sortJs _ _ _).mp hmem

/-! ### Catalog provenance and small list facts -/

lemma catalog_mem (rels : List Release) :
    ∀ v ∈ catalogOf rels, ∃ r, r ∈ rels ∧ v = parseVersion r.tag_name := by
  intro v hv
  unfold catalogOf at hv
  have hv2 := List.mem_filter.mp hv
  obtain ⟨r, hr, hre⟩ := List.mem_map.mp hv2.1
  exact ⟨r, hr, hre.symm⟩

lemma find?_congr {α : Type} {p q : α → Bool} :
    ∀ {l : List α}, (∀ a ∈ l, p a = q a) → l.find? p = l.find? q := by
  intro l
  induction l with
  | nil => intro _; rfl
  | cons a t ih =>
    intro h
    rw [List.find?_cons, List.find?_cons, h a (by simp)]
    split
    · rfl
    · exact ih fun b hb => h b (by simp [hb])

lemma parse_vraw (t : String) :
    parseVersion ("v" ++ (parseVersion t).raw) = parseVersion t := by
  have hraw : (parseVersion t).raw = String.mk (stripV t.data) := rfl
  rw [hraw]
  have hdata : ("v" ++ String.mk (stripV t.data)).data =
      'v' :: stripV t.data := rfl
  unfold parseVersion
  rw [hdata]
  have hstrip : stripV ('v' :: stripV t.data) = stripV t.data := rfl
  rw [hstrip]

/-! ### The grammar implies the `compare-versions` filter -/

lemma digit_not_dot {c : Char} (h : c.isDigit = true) : ¬(c = '.') :=
  digit_ne '.' h (by decide)

lemma digit_not_dash {c : Char} (h : c.isDigit = true) : ¬(c = '-') :=
  digit_ne '-' h (by decide)

lemma digit_not_plus {c : Char} (h : c.isDigit = true) : ¬(c = '+') :=
  digit_ne '+' h (by decide)

lemma digit_not_xstar {c : Char} (h : c.isDigit = true) : isXStar c = false := by
  have hx := digit_ne 'x' h (by decide)
  have hX := digit_ne 'X' h (by decide)
  have hs := digit_ne '*' h (by decide)
  simp [isXStar, hx, hX, hs]

lemma digit_not_vprefix {c : Char} (h : c.isDigit = true) :
    vPrefixChar c = false := by
  have h1 := digit_ne 'v' h (by decide)
  have h2 := digit_ne 'V' h (by decide)
  have h3 := digit_ne '^' h (by decide)
  have h4 := digit_ne '~' h (by decide)
  have h5 := digit_ne '<' h (by decide)
  have h6 := digit_ne '>' h (by decide)
  have h7 := digit_ne '=' h (by decide)
  simp [vPrefixChar, h1, h2, h3, h4, h5, h6, h7]

lemma vMajorD_digits_append {a : List Char} (rest : List Char)
    (h : a.all Char.isDigit = true) :
    vMajorD (a ++ rest) = vMajorD rest := by
  induction a with
  | nil => rfl
  | cons c cs ih =>
    simp only [List.all_cons, Bool.and_eq_true] at h
    simp only [List.cons_append, vMajorD, if_neg (digit_not_dot h.1), h.1,
      Bool.true_and]
    exact ih h.2

lemma vMinorD_digits_append {a : List Char} (rest : List Char)
    (h : a.all Char.isDigit = true) :
    vMinorD (a ++ rest) = vMinorD rest := by
  induction a with
  | nil => rfl
  | cons c cs ih =>
    simp only [List.all_cons, Bool.and_eq_true] at h
    simp only [List.cons_append, vMinorD, if_neg (digit_not_dot h.1), h.1,
      Bool.true_and]
    exact ih h.2

lemma vPatchD_digits_append {a : List Char} (rest : List Char)
    (h : a.all Char.isDigit = true) :
    vPatchD (a ++ rest) = vPatchD rest := by
  induction a with
  | nil => rfl
  | cons c cs ih =>
    simp only [List.all_cons, Bool.and_eq_true] at h
    simp only [List.cons_append, vPatchD, if_neg (digit_not_dot h.1),
      if_neg (digit_not_dash h.1), if_neg (digit_not_plus h.1), h.1,
      Bool.true_and]
    exact ih h.2

lemma vMajor_digits_then {a rest : List Char} (ha : digitsNE a = true)
    (h : vMajorD rest = true) : vMajor (a ++ rest) = true := by
  obtain ⟨hne, hall⟩ := digitsNE_parts ha
  cases a with
  | nil => simp at hne
  | cons c cs =>
    simp only [List.all_cons, Bool.and_eq_true] at hall
    simp only [List.cons_append, vMajor, hall.1, Bool.true_and]
    rw [vMajorD_digits_append rest hall.2]
    exact h

lemma vB_digits_then {b rest : List Char} (hb : digitsNE b = true)
    (h : vMinorD rest = true) : vB (b ++ rest) = true := by
  obtain ⟨hne, hall⟩ := digitsNE_parts hb
  cases b with
  | nil => simp at hne
  | cons c cs =>
    simp only [List.all_cons, Bool.and_eq_true] at hall
    simp only [List.cons_append, vB, digit_not_xstar hall.1, Bool.false_eq_true,
      if_false, hall.1, Bool.true_and]
    rw [vMinorD_digits_append rest hall.2]
    exact h

lemma vD_digits_then {b rest : List Char} (hb : digitsNE b = true)
    (h : vPatchD rest = true) : vD (b ++ rest) = true := by
  obtain ⟨hne, hall⟩ := digitsNE_parts hb
  cases b with
  | nil => simp at hne
  | cons c cs =>
    simp only [List.all_cons, Bool.and_eq_true] at hall
    simp only [List.cons_append, vD, digit_not_xstar hall.1, Bool.false_eq_true,
      if_false, hall.1, Bool.true_and]
    rw [vPatchD_digits_append rest hall.2]
    exact h

lemma validateL_of_vMajor {l : List Char} (hne : l ≠ [])
    (hd : ∀ c, l.head? = some c → c.isDigit = true)
    (h : vMajor l = true) : validateL l = true := by
  unfold validateL
  cases l with
  | nil => exact absurd rfl hne
  | cons c cs =>
    have hdc : c.isDigit = true := hd c rfl
    rw [List.dropWhile_cons, digit_not_vprefix hdc]
    simpa using h

lemma grammar_validate {s : String} (h : grammarOK s = true) :
    validateB (parseVersion s).raw = true := by
  have hraw : (parseVersion s).raw = String.mk (stripV s.data) := rfl
  rw [hraw]
  show validateL (stripV s.data) = true
  rcases grammar_cases h with ⟨a, hs, ha⟩ | ⟨a, b, hs, ha, hb⟩ |
    ⟨a, b, c, hs, ha, hb, hc⟩
  · have hj : joinDots (splitDots (stripV s.data)) = stripV s.data :=
      splitDots_join _
    rw [hs] at hj
    simp only [joinDots] at hj
    rw [← hj]
    obtain ⟨hne, hall⟩ := digitsNE_parts ha
    have hm : vMajor (a ++ []) = true :=
      vMajor_digits_then ha (by simp [vMajorD])
    rw [List.append_nil] at hm
    apply validateL_of_vMajor
    · intro he; rw [he] at hne; simp at hne
    · intro c0 hc0
      cases a with
      | nil => simp at hne
      | cons c1 cs =>
        simp only [List.head?] at hc0
        cases hc0
        simp only [List.all_cons, Bool.and_eq_true] at hall
        exact hall.1
    · exact hm
  · have hj : joinDots (splitDots (stripV s.data)) = stripV s.data :=
      splitDots_join _
    rw [hs] at hj
    simp only [joinDots] at hj
    rw [← hj]
    obtain ⟨hne, hall⟩ := digitsNE_parts ha
    have hm : vMajor (a ++ '.' :: b) = true := by
      apply vMajor_digits_then ha
      simp only [vMajorD, if_pos rfl]
      have := @vB_digits_then b [] hb (by simp [vMinorD])
      rwa [List.append_nil] at this
    apply validateL_of_vMajor
    · intro he
      have : a = [] := by
        cases a with
        | nil => rfl
        | cons c1 cs => simp at he
      rw [this] at hne; simp at hne
    · intro c0 hc0
      cases a with
      | nil => simp at hne
      | cons c1 cs =>
        simp only [List.cons_append, List.head?] at hc0
        cases hc0
        simp only [List.all_cons, Bool.and_eq_true] at hall
        exact hall.1
    · exact hm
  · have hj : joinDots (splitDots (stripV s.data)) = stripV s.data :=
      splitDots_join _
    rw [hs] at hj
    simp only [joinDots] at hj
    rw [← hj]
    obtain ⟨hne, hall⟩ := digitsNE_parts ha
    have hm : vMajor (a ++ '.' :: (b ++ '.' :: c)) = true := by
      apply vMajor_digits_then ha
      simp only [vMajorD, if_pos rfl]
      apply vB_digits_then hb
      simp only [vMinorD, if_pos rfl]
      have := @vD_digits_then c [] hc (by simp [vPatchD])
      rwa [List.append_nil] at this
    apply validateL_of_vMajor
    · intro he
      have : a = [] := by
        cases a with
        | nil => rfl
        | cons c1 cs => simp at he
      rw [this] at hne; simp at hne
    · intro c0 hc0
      cases a with
      | nil => simp at hne
      | cons c1 cs =>
        simp only [List.cons_append, List.head?] at hc0
        cases hc0
        simp only [List.all_cons, Bool.and_eq_true] at hall
        exact hall.1
    · exact hm

/-! ### The major of every returned target strictly exceeds the current -/

lemma strictEq_major_eq {k bm : Nat}
    (h : jsStrictEq (.val (k : Int) 1) (.val (bm : Int) 1) = true) : k = bm := by
  rw [jsStrictEq_val] at h
  exact of_decide_eq_true h

lemma result_major_gt {cur : String} {rels : List Release} {s : String}
    (hc : grammarOK cur = true)
    (ht : ∀ r ∈ rels, grammarOK r.tag_name = true)
    (hres : getLatestVersion cur rels = some s) :
    ∃ cm bm : Nat, (parseVersion cur).major = .val (cm : Int) 1 ∧
      (parseVersion s).major = .val (bm : Int) 1 ∧ cm < bm := by
  unfold getLatestVersion at hres
  cases hsort : sortJs jsCompareResult (catalogOf rels) with
  | nil => rw [hsort] at hres; simp at hres
  | cons best rest =>
    rw [hsort] at hres
    simp only [] at hres
    obtain ⟨cm, cmo, cpo, hcmaj, hcmin, hcpat, _⟩ := parse_fields hc
    have hbmem : best ∈ catalogOf rels := by
      have : best ∈ sortJs jsCompareResult (catalogOf rels) := by
        rw [hsort]; simp
      exact (mem_sortJs _ _ _).mp this
    obtain ⟨r0, hr0, hbeq⟩ := catalog_mem rels best hbmem
    obtain ⟨bm, bmo, bpo, hbmaj, _, _, _⟩ := parse_fields (ht r0 hr0)
    rw [← hbeq] at hbmaj
    cases hgate : jsLe best.major (parseVersion cur).major with
    | true => rw [hgate] at hres; simp at hres
    | false =>
      rw [hgate] at hres
      simp only [Bool.false_eq_true, if_false] at hres
      have hlt : cm < bm := by
        rw [hbmaj, hcmaj, jsLe_val] at hgate
        have := of_decide_eq_false hgate
        omega
      refine ⟨cm, bm, hcmaj, ?_, hlt⟩
      have hfound : ∀ (r : Release), r ∈ rels →
          (jsStrictEq (parseVersion r.tag_name).major best.major = true) →
          s = r.tag_name → (parseVersion s).major = .val (bm : Int) 1 := by
        intro r hr hstrict hsr
        obtain ⟨k, kmo, kpo, hkmaj, _, _, _⟩ := parse_fields (ht r hr)
        rw [hkmaj, hbmaj] at hstrict
        have := strictEq_major_eq hstrict
        rw [hsr, hkmaj, this]
      have hfallback : s = "v" ++ best.raw →
          (parseVersion s).major = .val (bm : Int) 1 := by
        intro hsr
        rw [hsr, hbeq]
        have : (parseVersion ("v" ++ (parseVersion r0.tag_name).raw)).major =
            (parseVersion r0.tag_name).major := by rw [parse_vraw]
        rw [this, ← hbeq, hbmaj]
      cases hmin : (parseVersion cur).minor.isNone with
      | true =>
        rw [hmin] at hres
        simp only [if_true] at hres
        cases hfindA : rels.find? (majorOnlyPred best) with
        | some r =>
          rw [hfindA] at hres
          simp only [Option.some.injEq] at hres
          have hp := List.find?_some hfindA
          have hrm := List.mem_of_find?_eq_some hfindA
          simp only [majorOnlyPred, Bool.and_eq_true] at hp
          exact hfound r hrm hp.1.1 hres.symm
        | none =>
          rw [hfindA] at hres
          cases hfindB : rels.find? (majorMinorPred best) with
          | some r =>
            rw [hfindB] at hres
            simp only [Option.some.injEq] at hres
            have hp := List.find?_some hfindB
            have hrm := List.mem_of_find?_eq_some hfindB
            simp only [majorMinorPred, Bool.and_eq_true] at hp
            exact hfound r hrm hp.1.1 hres.symm
          | none =>
            rw [hfindB] at hres
            simp only [Option.some.injEq] at hres
            exact hfallback hres.symm
      | false =>
        rw [hmin] at hres
        simp only [Bool.false_eq_true, if_false] at hres
        cases hpat : (parseVersion cur).patch.isNone with
        | true =>
          rw [hpat] at hres
          simp only [if_true] at hres
          cases hfindB : rels.find? (majorMinorPred best) with
          | some r =>
            rw [hfindB] at hres
            simp only [Option.some.injEq] at hres
            have hp := List.find?_some hfindB
            have hrm := List.mem_of_find?_eq_some hfindB
            simp only [majorMinorPred, Bool.and_eq_true] at hp
            exact hfound r hrm hp.1.1 hres.symm
          | none =>
            rw [hfindB] at hres
            simp only [Option.some.injEq] at hres
            exact hfallback hres.symm
        | false =>
          rw [hpat] at hres
          simp only [Bool.false_eq_true, if_false, Option.some.injEq] at hres
          exact hfallback hres.symm

/-! ### Specification-side definitions (written from the claims' wording,
to be compared against the source-derived definitions above) -/

/-- Integer reading of a component for the claimed ranking key. -/
def keyInt (n : JsNum) : Int :=
  match n with
  | .val a 1 => a
  | _ => 0

/-- The ranking key `(major, minor ?? -1, patch ?? -1)` claimed for the
engine's sort. -/
def claimKey (v : VersionInfo) : Int × Int × Int :=
  (keyInt v.major, (v.minor.map keyInt).getD (-1),
    (v.patch.map keyInt).getD (-1))

/-- Strict lexicographic order on the claimed ranking key. -/
def claimKeyLtB (u v : VersionInfo) : Bool :=
  decide ((claimKey u).1 < (claimKey v).1) ||
    ((claimKey u).1 == (claimKey v).1 &&
      (decide ((claimKey u).2.1 < (claimKey v).2.1) ||
        ((claimKey u).2.1 == (claimKey v).2.1 &&
          decide ((claimKey u).2.2 < (claimKey v).2.2))))

/-- The comparator claimed for `isNewerVersion`: compare component-by-
component at the precision of `current` only, a component missing on the
candidate side counting as `0`. -/
def specIsNewer (c l : VersionInfo) : Bool :=
  if asNat l.major > asNat c.major then true
  else if asNat l.major < asNat c.major then false
  else
    match c.minor with
    | none => false
    | some cmn =>
      if (l.minor.map asNat).getD 0 > asNat cmn then true
      else if (l.minor.map asNat).getD 0 < asNat cmn then false
      else
        match c.patch with
        | none => false
        | some cpn => decide ((l.patch.map asNat).getD 0 > asNat cpn)

/-- Claim-side predicate: a candidate whose (numeric) major equals the best
candidate's major, with no minor and no patch. -/
def specPredMajorOnly (best : VersionInfo) (r : Release) : Bool :=
  (asNat (parseVersion r.tag_name).major == asNat best.major) &&
    (parseVersion r.tag_name).minor.isNone &&
    (parseVersion r.tag_name).patch.isNone

/-- Claim-side predicate: a candidate whose (numeric) major equals the best
candidate's major, with minor set and patch unset. -/
def specPredMajorMinor (best : VersionInfo) (r : Release) : Bool :=
  (asNat (parseVersion r.tag_name).major == asNat best.major) &&
    (parseVersion r.tag_name).minor.isSome &&
    (parseVersion r.tag_name).patch.isNone

/-- The target claimed for a MAJOR-precision current version: first a
candidate with the best major and no minor/patch, else one with the best
major, minor set and patch unset, else the best itself in full form. -/
def specMajorTarget (best : VersionInfo) (rels : List Release) : String :=
  match rels.find? (specPredMajorOnly best) with
  | some r => r.tag_name
  | none =>
    match rels.find? (specPredMajorMinor best) with
    | some r => r.tag_name
    | none => "v" ++ best.raw

/-! ### Claims -/

/-- C1: for every grammar-conforming current version and nonempty candidate
set, if the highest-ranked candidate's major does not exceed the current
major the resolution is `none`, and every returned target has a strictly
greater major than the current version; Scenario C (`v3.1` against
`{v3.5, v3.5.2}`) yields no update. -/
theorem claim_c1 :
    (∀ (cur : String) (rels : List Release) (best : VersionInfo)
        (rest : List VersionInfo),
      grammarOK cur = true → (∀ r ∈ rels, grammarOK r.tag_name = true) →
      sortJs jsCompareResult (catalogOf rels) = best :: rest →
      jsLe best.major (parseVersion cur).major = true →
      getLatestVersion cur rels = none) ∧
    (∀ (cur : String) (rels : List Release) (s : String),
      grammarOK cur = true → (∀ r ∈ rels, grammarOK r.tag_name = true) →
      getLatestVersion cur rels = some s →
      ∃ cm bm : Nat, (parseVersion cur).major = .val (cm : Int) 1 ∧
        (parseVersion s).major = .val (bm : Int) 1 ∧ cm < bm) ∧
    getLatestVersion "v3.1" [⟨"v3.5"⟩, ⟨"v3.5.2"⟩] = none := by
  refine ⟨?_, ?_, by decide⟩
  · intro cur rels best rest _ _ hsort hgate
    unfold getLatestVersion
    rw [hsort]
    simp [hgate]
  · intro cur rels s hc ht hres
    exact result_major_gt hc ht hres

theorem claim_c1_witness :
    getLatestVersion "v2.0" [⟨"v2.9"⟩] = none ∧
    (∃ cm bm : Nat, (parseVersion "v2").major = .val (cm : Int) 1 ∧
      (parseVersion "v4").major = .val (bm : Int) 1 ∧ cm < bm) := by
  constructor
  · exact claim_c1.1 "v2.0" [⟨"v2.9"⟩] (parseVersion "v2.9") [] (by decide)
      (by decide) (by decide) (by decide)
  · exact claim_c1.2.1 "v2" [⟨"v4"⟩] "v4" (by decide) (by decide) (by decide)

/-- C8: whenever resolution proposes a target, the final comparator gate
`isNewerVersion` confirms it. -/
theorem claim_c8 (cur : String) (rels : List Release) (s : String)
    (hc : grammarOK cur = true)
    (ht : ∀ r ∈ rels, grammarOK r.tag_name = true)
    (hres : getLatestVersion cur rels = some s) :
    isNewerVersion cur s = true := by
  obtain ⟨cm, bm, hcm, hbm, hlt⟩ := result_major_gt hc ht hres
  unfold isNewerVersion
  rw [hcm, hbm, jsGt_val]
  simp [hlt]

theorem claim_c8_witness : isNewerVersion "v3.1.0" "v4.0.1" = true :=
  claim_c8 "v3.1.0" [⟨"v4.0.1"⟩] "v4.0.1" (by decide) (by decide) (by decide)

/-- C3, counterexample: at MINOR precision with no major.minor candidate the
code returns the best candidate in full `major.minor.patch` form, not the
claimed `major.minor` truncation. -/
theorem claim_c3_counterexample :
    getLatestVersion "v3.1" [⟨"v4.1.2"⟩] = some "v4.1.2" ∧
    getLatestVersion "v3.1" [⟨"v4.1.2"⟩] ≠ some "v4.1" := by
  constructor
  · decide
  · decide

/-- C3, amended: at MINOR precision, past the gate, when no candidate with
the best major, minor set and patch unset exists, the returned target is
the best candidate rendered in full form `"v" ++ best.raw` (patch kept). -/
theorem claim_c3 (cur : String) (rels : List Release) (best : VersionInfo)
    (rest : List VersionInfo)
    (hsort : sortJs jsCompareResult (catalogOf rels) = best :: rest)
    (hgate : jsLe best.major (parseVersion cur).major = false)
    (hmin : (parseVersion cur).minor.isSome = true)
    (hpat : (parseVersion cur).patch.isNone = true)
    (hfind : rels.find? (majorMinorPred best) = none) :
    getLatestVersion cur rels = some ("v" ++ best.raw) := by
  unfold getLatestVersion
  rw [hsort]
  have hmin2 : (parseVersion cur).minor.isNone = false := by
    cases hmm : (parseVersion cur).minor <;> simp_all
  simp [hgate, hmin2, hpat, hfind]

theorem claim_c3_witness :
    getLatestVersion "v2.0" [⟨"v3.2.7"⟩] = some "v3.2.7" := by
  have h := claim_c3 "v2.0" [⟨"v3.2.7"⟩] (parseVersion "v3.2.7") []
    (by decide) (by decide) (by decide) (by decide) (by decide)
  exact h.trans (by decide)

/-- C7, counterexample: a current version outside the accepted grammar does
not make resolution fail — it resolves to an ordinary update target. -/
theorem claim_c7_counterexample :
    grammarOK "abc" = false ∧
    getLatestVersion "abc" [⟨"v2"⟩] = some "v2" := by
  constructor
  · decide
  · decide

/-- C7, amended: a malformed current version is not detected: `parseVersion`
totally returns `NaN` components, every `<=` comparison against `NaN` is
false (so the upgrade gate passes), and resolution proceeds to an ordinary
outcome instead of a typed failure. -/
theorem claim_c7 :
    (parseVersion "abc").major = JsNum.nan ∧
    (∀ x : JsNum, jsLe x JsNum.nan = false) ∧
    getLatestVersion "abc" [⟨"v2"⟩] = some "v2" := by
  refine ⟨by decide, ?_, by decide⟩
  intro x
  cases x <;> rfl

/-- C6, counterexample: a tag outside the `v?<int>(.<int>(.<int>)?)?`
grammar survives the candidate filter and is returned as the upgrade
target. -/
theorem claim_c6_counterexample :
    getLatestVersion "v2" [⟨"v3.0.0-alpha"⟩] = some "v3.0.0-alpha" ∧
    grammarOK "v3.0.0-alpha" = false := by
  constructor
  · decide
  · decide

/-- C6, amended: every catalog entry passes the `compare-versions`
`validate` check (so strings it rejects, such as `abc`, are excluded and
Scenario E holds), but `validate` accepts version-like strings outside the
spec grammar — e.g. prerelease or wildcard forms — and such tags can be
selected as the target. -/
theorem claim_c6 :
    (∀ (rels : List Release) (v : VersionInfo),
      v ∈ catalogOf rels → validateB v.raw = true) ∧
    getLatestVersion "v2" [⟨"abc"⟩, ⟨"v2"⟩] = none ∧
    (validateB "3.0.0-alpha" = true ∧ grammarOK "3.0.0-alpha" = false) ∧
    getLatestVersion "v1" [⟨"v2.x"⟩] = some "v2.x" := by
  refine ⟨?_, by decide, ⟨by decide, by decide⟩, by decide⟩
  intro rels v hv
  simpa using (List.mem_filter.mp hv).2

theorem claim_c6_witness : validateB (parseVersion "v2").raw = true :=
  claim_c6.1 [⟨"v2"⟩] (parseVersion "v2") (by decide)

/-- C5, counterexample: the comparator ties a major-only candidate with a
`major.minor` one of the same major (it does not rank missing components as
`-1`), so `candidates[0]` is input-order dependent and need not be the
maximum of the claimed key order: from `[v4, v4.2]` the head is `v4`
although `v4` is strictly below `v4.2` in the claimed order, and reversing
the fetched list changes the resolved target. -/
theorem claim_c5_counterexample :
    (sortJs jsCompareResult [parseVersion "v4", parseVersion "v4.2"]).head? =
      some (parseVersion "v4") ∧
    claimKeyLtB (parseVersion "v4") (parseVersion "v4.2") = true ∧
    getLatestVersion "v3.0.0" [⟨"v4"⟩, ⟨"v4.2"⟩] = some "v4" ∧
    getLatestVersion "v3.0.0" [⟨"v4.2"⟩, ⟨"v4"⟩] = some "v4.2" := by
  refine ⟨by decide, by decide, by decide, by decide⟩

/-- C5, amended: the sort comparator orders strictly descending by major but
compares minor (resp. patch) only when both sides carry one — any other
pair ties, and the stable sort keeps input order on ties.  Consequently
`candidates[0]` always attains a maximal major, but need not be maximal
under `(major, minor ?? -1, patch ?? -1)` and may depend on input order. -/
theorem claim_c5 :
    (∀ l : List VersionInfo, (∀ v ∈ l, NatMajor v) → l ≠ [] →
      ∃ h, (sortJs jsCompareResult l).head? = some h ∧ h ∈ l ∧
        ∀ v ∈ l, jsLe v.major h.major = true) ∧
    jsCompareResult (parseVersion "v4.2") (parseVersion "v4") =
      JsNum.val 0 1 ∧
    jsCompareResult (parseVersion "v4.1.2") (parseVersion "v4.1") =
      JsNum.val 0 1 := by
  exact ⟨sortJs_head_max, by decide, by decide⟩

theorem claim_c5_witness :
    ∃ h, (sortJs jsCompareResult [parseVersion "v7"]).head? = some h ∧
      h ∈ [parseVersion "v7"] ∧
      ∀ v ∈ [parseVersion "v7"], jsLe v.major h.major = true := by
  apply claim_c5.1
  · intro v hv
    simp only [List.mem_singleton] at hv
    subst hv
    exact ⟨7, by decide⟩
  · simp

/-- C10: when the major-only or major.minor `find` branch matches, the
returned replacement string is the matching release's `tag_name` exactly as
published, while the full-form fallback always renders `"v" ++ raw`; so the
proposed pin can lack a leading `v` when the current pin has one
(`v3` with release tag `4` proposes `4`) and vice versa (`3` with release
tag `v4.0.1` proposes `v4.0.1`). -/
theorem claim_c10 :
    (∀ (cur : String) (rels : List Release) (best : VersionInfo)
        (rest : List VersionInfo) (r : Release),
      sortJs jsCompareResult (catalogOf rels) = best :: rest →
      jsLe best.major (parseVersion cur).major = false →
      (parseVersion cur).minor.isNone = true →
      rels.find? (majorOnlyPred best) = some r →
      getLatestVersion cur rels = some r.tag_name) ∧
    (∀ (cur : String) (rels : List Release) (best : VersionInfo)
        (rest : List VersionInfo) (r : Release),
      sortJs jsCompareResult (catalogOf rels) = best :: rest →
      jsLe best.major (parseVersion cur).major = false →
      (parseVersion cur).minor.isNone = true →
      rels.find? (majorOnlyPred best) = none →
      rels.find? (majorMinorPred best) = some r →
      getLatestVersion cur rels = some r.tag_name) ∧
    (∀ (cur : String) (rels : List Release) (best : VersionInfo)
        (rest : List VersionInfo) (r : Release),
      sortJs jsCompareResult (catalogOf rels) = best :: rest →
      jsLe best.major (parseVersion cur).major = false →
      (parseVersion cur).minor.isSome = true →
      (parseVersion cur).patch.isNone = true →
      rels.find? (majorMinorPred best) = some r →
      getLatestVersion cur rels = some r.tag_name) ∧
    (∀ (cur : String) (rels : List Release) (best : VersionInfo)
        (rest : List VersionInfo),
      sortJs jsCompareResult (catalogOf rels) = best :: rest →
      jsLe best.major (parseVersion cur).major = false →
      (parseVersion cur).minor.isNone = true →
      rels.find? (majorOnlyPred best) = none →
      rels.find? (majorMinorPred best) = none →
      getLatestVersion cur rels = some ("v" ++ best.raw)) ∧
    getLatestVersion "v3" [⟨"4"⟩] = some "4" ∧
    getLatestVersion "3" [⟨"v4.0.1"⟩] = some "v4.0.1" := by
  refine ⟨?_, ?_, ?_, ?_, by decide, by decide⟩
  · intro cur rels best rest r hsort hgate hmin hfind
    unfold getLatestVersion
    rw [hsort]
    simp [hgate, hmin, hfind]
  · intro cur rels best rest r hsort hgate hmin hfindA hfindB
    unfold getLatestVersion
    rw [hsort]
    simp [hgate, hmin, hfindA, hfindB]
  · intro cur rels best rest r hsort hgate hmin hpat hfind
    unfold getLatestVersion
    rw [hsort]
    have hmin2 : (parseVersion cur).minor.isNone = false := by
      cases hmm : (parseVersion cur).minor <;> simp_all
    simp [hgate, hmin2, hpat, hfind]
  · intro cur rels best rest hsort hgate hmin hfindA hfindB
    unfold getLatestVersion
    rw [hsort]
    simp [hgate, hmin, hfindA, hfindB]

theorem claim_c10_witness : getLatestVersion "v1" [⟨"2"⟩] = some "2" :=
  claim_c10.1 "v1" [⟨"2"⟩] (parseVersion "2") [] ⟨"2"⟩ (by decide)
    (by decide) (by decide) (by decide)

/-- C9: `parseVersion` is total and structural — for every input string it
returns a record built by stripping one leading `v`, splitting on `.` and
converting each component with `Number`; a set patch implies a set minor;
non-numeric components become `NaN` fields (never an error): `"abc"` parses
to a `NaN` major, `""` to major `0`, and `"v1.foo.3"` to a record with a
`NaN` minor between numeric major and patch. -/
theorem claim_c9 :
    (∀ s : String, (parseVersion s).raw = String.mk (stripV s.data)) ∧
    (∀ s : String, (parseVersion s).major =
      ((splitDots (stripV s.data)).map jsNumberL).headD JsNum.nan ∧
      (parseVersion s).minor = ((splitDots (stripV s.data)).map jsNumberL)[1]? ∧
      (parseVersion s).patch = ((splitDots (stripV s.data)).map jsNumberL)[2]?) ∧
    (∀ s : String, (parseVersion s).patch.isSome = true →
      (parseVersion s).minor.isSome = true) ∧
    parseVersion "abc" = ⟨JsNum.nan, none, none, "abc"⟩ ∧
    parseVersion "" = ⟨JsNum.val 0 1, none, none, ""⟩ ∧
    parseVersion "v1.foo.3" = ⟨JsNum.val 1 1, some JsNum.nan,
      some (JsNum.val 3 1), "1.foo.3"⟩ := by
  refine ⟨fun s => rfl, fun s => ⟨rfl, rfl, rfl⟩, ?_, by decide, by decide,
    by decide⟩
  intro s h
  have hp : (parseVersion s).patch =
      ((splitDots (stripV s.data)).map jsNumberL)[2]? := rfl
  have hm : (parseVersion s).minor =
      ((splitDots (stripV s.data)).map jsNumberL)[1]? := rfl
  rw [hp] at h
  rw [hm]
  rw [Option.isSome_iff_exists] at h ⊢
  obtain ⟨a, ha⟩ := h
  have h2 := (List.getElem?_eq_some.mp ha).1
  exact ⟨_, List.getElem?_eq_some.mpr ⟨by omega, rfl⟩⟩

theorem claim_c9_witness : (parseVersion "v1.2.3").minor.isSome = true :=
  claim_c9.2.2.1 "v1.2.3" (by decide)

/-- C2: for a MAJOR-precision current version past the upgrade gate, the
engine selects, in strict preference order, (a) a candidate with the best
major and no minor/patch, else (b) one with that major, minor set and patch
unset, else (c) the best itself in full form; in particular Scenario A
(`v3` against `{v3.2.1, v4, v4.1}` targets `v4`) and Scenario B
(`v3` against `{v4.1, v4.1.2}` targets `v4.1`). -/
theorem claim_c2 :
    (∀ (cur : String) (rels : List Release) (best : VersionInfo)
        (rest : List VersionInfo),
      grammarOK cur = true → (∀ r ∈ rels, grammarOK r.tag_name = true) →
      sortJs jsCompareResult (catalogOf rels) = best :: rest →
      jsLe best.major (parseVersion cur).major = false →
      (parseVersion cur).minor.isNone = true →
      getLatestVersion cur rels = some (specMajorTarget best rels)) ∧
    getLatestVersion "v3" [⟨"v3.2.1"⟩, ⟨"v4"⟩, ⟨"v4.1"⟩] = some "v4" ∧
    getLatestVersion "v3" [⟨"v4.1"⟩, ⟨"v4.1.2"⟩] = some "v4.1" := by
  refine ⟨?_, by decide, by decide⟩
  intro cur rels best rest hc ht hsort hgate hmin
  have hbmem : best ∈ catalogOf rels := by
    have : best ∈ sortJs jsCompareResult (catalogOf rels) := by
      rw [hsort]; simp
    exact (mem_sortJs _ _ _).mp this
  obtain ⟨r0, hr0, hbeq⟩ := catalog_mem rels best hbmem
  obtain ⟨bm, _, _, hbmaj0, _, _, _⟩ := parse_fields (ht r0 hr0)
  have hbmaj : best.major = .val (bm : Int) 1 := by rw [hbeq]; exact hbmaj0
  have hA : ∀ r ∈ rels, majorOnlyPred best r = specPredMajorOnly best r := by
    intro r hr
    obtain ⟨k, _, _, hkmaj, _, _, _⟩ := parse_fields (ht r hr)
    simp only [majorOnlyPred, specPredMajorOnly, hkmaj, hbmaj,
      jsStrictEq_val, asNat_val]
    by_cases hk : k = bm <;> simp [hk]
  have hB : ∀ r ∈ rels, majorMinorPred best r = specPredMajorMinor best r := by
    intro r hr
    obtain ⟨k, _, _, hkmaj, _, _, _⟩ := parse_fields (ht r hr)
    simp only [majorMinorPred, specPredMajorMinor, hkmaj, hbmaj,
      jsStrictEq_val, asNat_val]
    by_cases hk : k = bm <;> simp [hk]
  unfold getLatestVersion
  rw [hsort]
  simp only [hgate, Bool.false_eq_true, if_false, hmin, if_true]
  rw [find?_congr hA, find?_congr hB]
  unfold specMajorTarget
  cases hfa : rels.find? (specPredMajorOnly best) with
  | some r => simp
  | none =>
    cases hfb : rels.find? (specPredMajorMinor best) with
    | some r => simp
    | none => simp

theorem claim_c2_witness :
    getLatestVersion "v3" [⟨"v5.2.1"⟩] = some "v5.2.1" := by
  have h := claim_c2.1 "v3" [⟨"v5.2.1"⟩] (parseVersion "v5.2.1") []
    (by decide) (by decide) (by decide) (by decide) (by decide)
  exact h.trans (by decide)

/-- C4: on grammar-conforming inputs `isNewerVersion` coincides with the
claimed comparator — component-by-component at the precision of `current`
only, a candidate-side missing component counting as `0` — and returns
`false` (never raises) on an equal candidate. -/
theorem claim_c4 (s t : String) (hs : grammarOK s = true)
    (ht : grammarOK t = true) :
    isNewerVersion s t = specIsNewer (parseVersion s) (parseVersion t) ∧
    isNewerVersion s s = false := by
  obtain ⟨cm, cmo, cpo, hcm, hcmin, hcpat, hcimp⟩ := parse_fields hs
  obtain ⟨lm, lmo, lpo, hlm, hlmin, hlpat, hlimp⟩ := parse_fields ht
  constructor
  · rcases cmo with _ | cmv <;> rcases lmo with _ | lmv <;>
      rcases cpo with _ | cpv <;> rcases lpo with _ | lpv <;>
      first
        | exact Bool.noConfusion (hcimp rfl)
        | exact Bool.noConfusion (hlimp rfl)
        | (simp only [isNewerVersion, specIsNewer, hcm, hlm, hcmin, hlmin,
            hcpat, hlpat, Option.map_some', Option.map_none', natVal, jsGt_val,
            jsLt_val, asNat_val, Option.getD_some, Option.getD_none,
            decide_eq_true_eq, gt_iff_lt] <;>
          split_ifs <;>
            first
              | rfl
              | omega
              | (rw [decide_eq_decide]; omega)
              | simp_all)
  · rcases cmo with _ | cmv <;> rcases cpo with _ | cpv <;>
      first
        | exact Bool.noConfusion (hcimp rfl)
        | (simp only [isNewerVersion, hcm, hcmin, hcpat, Option.map_some',
            Option.map_none', natVal, jsGt_val, jsLt_val,
            decide_eq_true_eq] <;>
          split_ifs <;>
            first
              | rfl
              | omega
              | simp_all)

theorem claim_c4_witness :
    isNewerVersion "v1.2" "v1.3" =
      specIsNewer (parseVersion "v1.2") (parseVersion "v1.3") ∧
    isNewerVersion "v1.2" "v1.2" = false :=
  claim_c4 "v1.2" "v1.3" (by decide) (by decide)
